import Mathlib

/-!
Verification of the Cantera reaction-stoichiometry and rate-of-progress engine.

The development shallowly embeds:
* the `ReactionStoichMgr` façade and its `StoichManagerN` role managers
  (creation / destruction / net production rates, concentration products,
  reversible-reaction property deltas);
* the phase-existence / phase-stability gating of `InterfaceKinetics`;
* the reversibility query `InterfaceKinetics::isReversible`;
* the `SurfPhase` molar-volume / molar-density surface.

Machine `double` arithmetic is modelled by exact rationals; caller-owned
arrays indexed by species or reaction number are modelled as functions
from `ℕ`.  In-place updates of caller arrays are modelled by folds of
`Function.update`.
-/

namespace Cantera

/-- One sparse stoichiometric entry of a reaction side: the species index,
the reaction order used for concentration products (which may be fractional
and may override the stoichiometric coefficient), and the stoichiometric
coefficient used for creation/destruction bookkeeping. -/
structure StoichEntry where
  species : ℕ
  order : ℚ
  stoich : ℚ
deriving DecidableEq, Inhabited

/-- A reaction record: reactant entries, product entries, and the
reversibility flag. -/
structure Reaction where
  reactants : List StoichEntry
  products : List StoichEntry
  reversible : Bool
deriving DecidableEq, Inhabited

/-- Total stoichiometric coefficient of species `k` in a list of entries
(repeated species indices accumulate). -/
def stoichCoeff (entries : List StoichEntry) (k : ℕ) : ℚ :=
  (entries.map fun e => if e.species = k then e.stoich else 0).sum

/-- Reactant stoichiometric coefficient matrix entry `N_r(k, i)` of reaction `r`. -/
def Reaction.reactantCoeff (r : Reaction) (k : ℕ) : ℚ :=
  stoichCoeff r.reactants k

/-- Product stoichiometric coefficient matrix entry `N_p(k, i)` of reaction `r`. -/
def Reaction.productCoeff (r : Reaction) (k : ℕ) : ℚ :=
  stoichCoeff r.products k

/-- Modelled from the spec: the sparse coefficient store of one stoichiometric
role (`StoichManagerN`), whose implementation is absent from the excerpt.
It holds, per registered reaction, the reaction index paired with that
reaction's entries for this role. -/
structure StoichManagerN where
  rxns : List (ℕ × List StoichEntry)
deriving DecidableEq, Inhabited

/-- Modelled from the spec: registering one reaction with a role manager. -/
def StoichManagerN.addRxn (s : StoichManagerN) (rxn : ℕ) (entries : List StoichEntry) :
    StoichManagerN :=
  ⟨s.rxns ++ [(rxn, entries)]⟩

/-- Gathered contribution of a registration list to species `k`:
the scatter-add of each registered reaction's rate scaled by the species'
stoichiometric coefficient. -/
def listContribution (l : List (ℕ × List StoichEntry)) (rates : ℕ → ℚ) (k : ℕ) : ℚ :=
  (l.map fun p => stoichCoeff p.2 k * rates p.1).sum

/-- Modelled from the spec: `StoichManagerN::incrementSpecies` — scatter-add
each registered reaction's rate into every species entry it touches, scaled
by that species' multiplicity. -/
def StoichManagerN.incrementSpecies (s : StoichManagerN) (rates output : ℕ → ℚ) : ℕ → ℚ :=
  fun k => output k + listContribution s.rxns rates k

/-- Modelled from the spec: `StoichManagerN::decrementSpecies` — the
subtracting form of the scatter accumulation. -/
def StoichManagerN.decrementSpecies (s : StoichManagerN) (rates output : ℕ → ℚ) : ℕ → ℚ :=
  fun k => output k - listContribution s.rxns rates k

/-- Concentration product of one reaction's entry list:
`∏ conc[species]^order` over the entries, where an order of exactly `0` is
skipped (contributes the factor `1`).  The power function `rpow` is the
external `pow` collaborator. -/
def orderProd (rpow : ℚ → ℚ → ℚ) (conc : ℕ → ℚ) (entries : List StoichEntry) : ℚ :=
  (entries.map fun e => if e.order = 0 then 1 else rpow (conc e.species) e.order).prod

/-- Modelled from the spec: `StoichManagerN::multiply` — for every registered
reaction, multiply `rates[i]` in place by the concentration product of its
entries. -/
def StoichManagerN.multiply (s : StoichManagerN) (rpow : ℚ → ℚ → ℚ)
    (conc rates : ℕ → ℚ) : ℕ → ℚ :=
  s.rxns.foldl (fun R p => Function.update R p.1 (R p.1 * orderProd rpow conc p.2)) rates

/-- All entries a role manager has registered under reaction index `i`. -/
def StoichManagerN.entriesFor (s : StoichManagerN) (i : ℕ) : List StoichEntry :=
  ((s.rxns.filter fun p => p.1 == i).map Prod.snd).flatten

/-- Modelled from the spec: the `ReactionStoichMgr` façade composing the
reactant-side, reversible-product-side and irreversible-product-side role
managers (fractional reaction orders are carried per entry of the reactant
role, overriding the coefficient for concentration products only). -/
structure ReactionStoichMgr where
  m_reactants : StoichManagerN
  m_revproducts : StoichManagerN
  m_irrevproducts : StoichManagerN
deriving DecidableEq, Inhabited

/-- The empty stoichiometry manager, before any reaction is registered. -/
def ReactionStoichMgr.empty : ReactionStoichMgr :=
  ⟨⟨[]⟩, ⟨[]⟩, ⟨[]⟩⟩

/-- Modelled from the spec: `ReactionStoichMgr::add` — register reaction
`rxn`: its reactant entries always go to the reactant role; its product
entries go to the reversible-product role if it is reversible and to the
irreversible-product role otherwise. -/
def ReactionStoichMgr.add (m : ReactionStoichMgr) (rxn : ℕ) (r : Reaction) :
    ReactionStoichMgr where
  m_reactants := m.m_reactants.addRxn rxn r.reactants
  m_revproducts := if r.reversible then m.m_revproducts.addRxn rxn r.products else m.m_revproducts
  m_irrevproducts := if r.reversible then m.m_irrevproducts else m.m_irrevproducts.addRxn rxn r.products

/-- Register a list of reactions starting at reaction index `n`. -/
def buildRxns (m : ReactionStoichMgr) (n : ℕ) : List Reaction → ReactionStoichMgr
  | [] => m
  | r :: rs => buildRxns (m.add n r) (n + 1) rs

/-- Build a stoichiometry manager from a reaction list, assigning dense
zero-based reaction indices in list order. -/
def ReactionStoichMgr.fromReactions (rxns : List Reaction) : ReactionStoichMgr :=
  buildRxns ReactionStoichMgr.empty 0 rxns

/-- Modelled from the spec: `ReactionStoichMgr::getCreationRates` — the
output starts at zero and accumulates `C = N_p Q_fwd + N_r Q_rev`, assembled
from the three role managers. -/
def ReactionStoichMgr.getCreationRates (m : ReactionStoichMgr) (ropf ropr : ℕ → ℚ) : ℕ → ℚ :=
  m.m_reactants.incrementSpecies ropr
    (m.m_irrevproducts.incrementSpecies ropf
      (m.m_revproducts.incrementSpecies ropf fun _ => 0))

/-- Modelled from the spec: `ReactionStoichMgr::getDestructionRates` — the
output starts at zero and accumulates `D = N_r Q_fwd + N_p Q_rev`. -/
def ReactionStoichMgr.getDestructionRates (m : ReactionStoichMgr) (ropf ropr : ℕ → ℚ) : ℕ → ℚ :=
  m.m_reactants.incrementSpecies ropf
    (m.m_irrevproducts.incrementSpecies ropr
      (m.m_revproducts.incrementSpecies ropr fun _ => 0))

/-- Modelled from the spec: `ReactionStoichMgr::getNetProductionRates` — the
output starts at zero and accumulates the one-pass net formula
`W = (N_p - N_r) Q_net` (the header's nomenclature `W = C - D`). -/
def ReactionStoichMgr.getNetProductionRates (m : ReactionStoichMgr) (ropnet : ℕ → ℚ) : ℕ → ℚ :=
  m.m_reactants.decrementSpecies ropnet
    (m.m_irrevproducts.incrementSpecies ropnet
      (m.m_revproducts.incrementSpecies ropnet fun _ => 0))

/-- Modelled from the spec: `ReactionStoichMgr::multiplyReactants` — the thin
pass-through multiplying each rate in place by the reactant-side
concentration product. -/
def ReactionStoichMgr.multiplyReactants (m : ReactionStoichMgr) (rpow : ℚ → ℚ → ℚ)
    (conc rates : ℕ → ℚ) : ℕ → ℚ :=
  m.m_reactants.multiply rpow conc rates

/-- Property dot product of an entry list with a per-species property array:
`Σ stoich * g[species]` over the entries. -/
def entriesDot (entries : List StoichEntry) (g : ℕ → ℚ) : ℚ :=
  (entries.map fun e => e.stoich * g e.species).sum

/-- The property change of one registered reversible reaction: product-side
dot product minus reactant-side dot product of the per-species property `g`. -/
def revDeltaTerm (m : ReactionStoichMgr) (g : ℕ → ℚ) (p : ℕ × List StoichEntry) : ℚ :=
  entriesDot p.2 g - entriesDot (m.m_reactants.entriesFor p.1) g

/-- Modelled from the spec: `ReactionStoichMgr::getRevReactionDelta` — for
each reaction registered in the reversible-product role, write
`Σ (product coeff)·g − Σ (reactant coeff)·g` into `dg` at that reaction's
index; entries of `dg` for irreversible reactions are left unaltered. -/
def ReactionStoichMgr.getRevReactionDelta (m : ReactionStoichMgr) (g dg : ℕ → ℚ) : ℕ → ℚ :=
  m.m_revproducts.rxns.foldl (fun D p => Function.update D p.1 (revDeltaTerm m g p)) dg

/-- Modelled from the spec: the phase-existence gate state used by
`InterfaceKinetics::updateROP` — per-phase existence flags and the
per-reaction / per-phase participation table. -/
structure PhaseGate where
  nPhases : ℕ
  phaseExists : ℕ → Bool
  rxnPhaseIsReactant : ℕ → ℕ → Bool
  rxnPhaseIsProduct : ℕ → ℕ → Bool

/-- Whether some phase supplying a reactant to reaction `j` does not exist. -/
def missingReactantPhase (g : PhaseGate) (j : ℕ) : Bool :=
  (List.range g.nPhases).any fun p => g.rxnPhaseIsReactant j p && !g.phaseExists p

/-- Whether some phase receiving a product of reaction `j` does not exist. -/
def missingProductPhase (g : PhaseGate) (j : ℕ) : Bool :=
  (List.range g.nPhases).any fun p => g.rxnPhaseIsProduct j p && !g.phaseExists p

/-- Modelled from the spec: the forward rate-of-progress adjustment of
`InterfaceKinetics::updateROP` — a reaction drawing a reactant from a
nonexistent phase has its forward rate of progress forced to zero. -/
def gateFwdROP (g : PhaseGate) (ropf : ℕ → ℚ) : ℕ → ℚ :=
  fun j => if missingReactantPhase g j then 0 else ropf j

/-- Modelled from the spec: the reverse rate-of-progress adjustment of
`InterfaceKinetics::updateROP` — a reaction whose reverse direction draws
from a nonexistent product phase has its reverse rate of progress forced to
zero. -/
def gateRevROP (g : PhaseGate) (ropr : ℕ → ℚ) : ℕ → ℚ :=
  fun j => if missingProductPhase g j then 0 else ropr j

/-- Modelled from the spec: the phase-stability clamp of
`InterfaceKinetics::updateROP` — after net production rates are computed,
any positive net rate of a species belonging to an unstable phase is clamped
to zero. -/
def clampUnstableNet (isStable : ℕ → Bool) (phaseOf : ℕ → ℕ) (net : ℕ → ℚ) : ℕ → ℚ :=
  fun k => if isStable (phaseOf k) = false ∧ 0 < net k then 0 else net k

/-- The extrinsic per-phase flags of `InterfaceKinetics`: `m_phaseExists`
and `m_phaseIsStable`, indexed by phase position. -/
structure PhaseFlags where
  m_phaseExists : ℕ → Bool
  m_phaseIsStable : ℕ → Bool

/-- The default flag state: every phase exists and every phase is stable. -/
def PhaseFlags.init : PhaseFlags :=
  ⟨fun _ => true, fun _ => true⟩

/-- Modelled from the spec: `InterfaceKinetics::setPhaseExistence` — record
the existence of phase `iphase` and flip its stability flag as well, so that
a nonexistent phase is forced unstable. -/
def setPhaseExistence (s : PhaseFlags) (iphase : ℕ) (e : Bool) : PhaseFlags where
  m_phaseExists := Function.update s.m_phaseExists iphase e
  m_phaseIsStable := Function.update s.m_phaseIsStable iphase e

/-- Modelled from the spec: `InterfaceKinetics::setPhaseStability` — record
the stability of phase `iphase`, leaving existence untouched. -/
def setPhaseStability (s : PhaseFlags) (iphase : ℕ) (isStable : Bool) : PhaseFlags where
  m_phaseExists := s.m_phaseExists
  m_phaseIsStable := Function.update s.m_phaseIsStable iphase isStable

/-- `InterfaceKinetics::isReversible`: search the stored list of reversible
reaction indices for `i`; the C++ body returns `true` exactly when
`std::find` stops strictly before the end iterator. -/
def InterfaceKinetics.isReversible (m_revindex : List ℕ) (i : ℕ) : Bool :=
  if m_revindex.findIdx (fun j => j == i) < m_revindex.length then true else false

/-- The state of a `SurfPhase`: its site density `m_n0`. -/
structure SurfPhaseState where
  m_n0 : ℚ

/-- `SurfPhase::molarVolume`: interface phases have no volume. -/
def SurfPhase.molarVolume (_s : SurfPhaseState) : ℚ := 0

/-- `SurfPhase::setMolarDensity`: setting the molar density of an interface
to anything other than zero raises a `CanteraError`; setting it to zero
returns normally and changes nothing. -/
def SurfPhase.setMolarDensity (vm : ℚ) : Except String Unit :=
  if vm ≠ 0 then
    Except.error "SurfPhase::setMolarDensity: The volume of an interface is zero"
  else
    Except.ok ()

/-- Reaction 0 of the fractional-coefficient test mechanism:
`H2O => 1.4 H + 0.6 OH + 0.2 O2`, irreversible, with species indices
`H2O = 0`, `OH = 1`, `H = 2`, `O2 = 3`, `H2 = 4`. -/
def fracRxn0 : Reaction where
  reactants := [⟨0, 1, 1⟩]
  products := [⟨2, 1.4, 1.4⟩, ⟨1, 0.6, 0.6⟩, ⟨3, 0.2, 0.2⟩]
  reversible := false

/-- Reaction 1 of the fractional-coefficient test mechanism:
`0.7 H2 + 0.6 OH + 0.2 O2 => H2O`, irreversible, with explicit reaction
orders `H2:0.8`, `OH:2`, `O2:1` overriding the coefficients. -/
def fracRxn1 : Reaction where
  reactants := [⟨4, 0.8, 0.7⟩, ⟨1, 2, 0.6⟩, ⟨3, 1, 0.2⟩]
  products := [⟨0, 1, 1⟩]
  reversible := false

/-- The registered two-reaction fractional-coefficient mechanism. -/
def fracMech : ReactionStoichMgr :=
  ReactionStoichMgr.fromReactions [fracRxn0, fracRxn1]

/-- A two-phase gate in which phase `0` exists and phase `1` (phase B) does
not; reaction `0` draws its reactant from phase B and deposits its product
in phase `0`. -/
def twoPhaseGateB : PhaseGate where
  nPhases := 2
  phaseExists := fun p => decide (p = 0)
  rxnPhaseIsReactant := fun _ p => decide (p = 1)
  rxnPhaseIsProduct := fun _ p => decide (p = 0)

/-- A one-reaction reversible mechanism `S0 = S1` used as a concrete
instance. -/
def revRxnEx : Reaction where
  reactants := [⟨0, 1, 1⟩]
  products := [⟨1, 1, 1⟩]
  reversible := true

/-- The registration list a role manager ends up with after the reactions
`rs` are registered starting at reaction index `n`, keeping those satisfying
`cond` and taking the entry list `side` of each. -/
def regsFromIf (n : ℕ) (rs : List Reaction) (cond : Reaction → Bool)
    (side : Reaction → List StoichEntry) : List (ℕ × List StoichEntry) :=
  match rs with
  | [] => []
  | r :: rs' =>
      if cond r then (n, side r) :: regsFromIf (n + 1) rs' cond side
      else regsFromIf (n + 1) rs' cond side

theorem buildRxns_m_reactants (rs : List Reaction) :
    ∀ (m : ReactionStoichMgr) (n : ℕ),
      (buildRxns m n rs).m_reactants.rxns
        = m.m_reactants.rxns ++ regsFromIf n rs (fun _ => true) Reaction.reactants := by
  induction rs with
  | nil => intro m n; simp [buildRxns, regsFromIf]
  | cons r rs ih =>
      intro m n
      simp only [buildRxns, regsFromIf, if_pos]
      rw [ih]
      simp [ReactionStoichMgr.add, StoichManagerN.addRxn]

theorem buildRxns_m_revproducts (rs : List Reaction) :
    ∀ (m : ReactionStoichMgr) (n : ℕ),
      (buildRxns m n rs).m_revproducts.rxns
        = m.m_revproducts.rxns ++ regsFromIf n rs (fun r => r.reversible) Reaction.products := by
  induction rs with
  | nil => intro m n; simp [buildRxns, regsFromIf]
  | cons r rs ih =>
      intro m n
      by_cases hr : r.reversible
      · simp only [buildRxns, regsFromIf, hr, if_true]
        rw [ih]
        simp [ReactionStoichMgr.add, StoichManagerN.addRxn, hr]
      · simp only [buildRxns, regsFromIf, hr, if_false]
        rw [ih]
        simp [ReactionStoichMgr.add, StoichManagerN.addRxn, hr]

theorem buildRxns_m_irrevproducts (rs : List Reaction) :
    ∀ (m : ReactionStoichMgr) (n : ℕ),
      (buildRxns m n rs).m_irrevproducts.rxns
        = m.m_irrevproducts.rxns ++ regsFromIf n rs (fun r => !r.reversible) Reaction.products := by
  induction rs with
  | nil => intro m n; simp [buildRxns, regsFromIf]
  | cons r rs ih =>
      intro m n
      by_cases hr : r.reversible
      · simp only [buildRxns, regsFromIf, hr, Bool.not_true, if_false]
        rw [ih]
        simp [ReactionStoichMgr.add, StoichManagerN.addRxn, hr]
      · simp only [buildRxns, regsFromIf, hr, Bool.not_false, if_true]
        rw [ih]
        simp [ReactionStoichMgr.add, StoichManagerN.addRxn, hr]

theorem listContribution_sub (l : List (ℕ × List StoichEntry)) (a b : ℕ → ℚ) (k : ℕ) :
    listContribution l (fun i => a i - b i) k
      = listContribution l a k - listContribution l b k := by
  induction l with
  | nil => simp [listContribution]
  | cons p l ih =>
      simp only [listContribution, List.map_cons, List.sum_cons] at *
      rw [ih]
      ring

theorem listContribution_regsFromIf (rs : List Reaction) (cond : Reaction → Bool)
    (side : Reaction → List StoichEntry) (rates : ℕ → ℚ) (k : ℕ) :
    ∀ n, listContribution (regsFromIf n rs cond side) rates k
      = ∑ j in Finset.range rs.length,
          if cond (rs.getD j default)
          then stoichCoeff (side (rs.getD j default)) k * rates (n + j) else 0 := by
  induction rs with
  | nil => intro n; simp [regsFromIf, listContribution]
  | cons r rs ih =>
      intro n
      rw [List.length_cons, Finset.sum_range_succ']
      simp only [List.getD_cons_succ, List.getD_cons_zero]
      have hshift : ∀ j, n + 1 + j = n + (j + 1) := fun j => by omega
      have hsum : ∀ f : ℕ → ℚ,
          (∑ j in Finset.range rs.length,
            if cond (rs.getD j default) = true
            then stoichCoeff (side (rs.getD j default)) k * f (n + 1 + j) else 0)
          = ∑ j in Finset.range rs.length,
            if cond (rs.getD j default) = true
            then stoichCoeff (side (rs.getD j default)) k * f (n + (j + 1)) else 0 :=
        fun f => Finset.sum_congr rfl fun j _ => by rw [hshift j]
      rcases Bool.eq_false_or_eq_true (cond r) with hc | hc
      · simp only [regsFromIf, hc, eq_self_iff_true, if_true, Nat.add_zero, listContribution,
          List.map_cons, List.sum_cons]
        have hih := ih (n + 1)
        simp only [listContribution] at hih
        rw [hih, hsum rates]
        ring
      · simp only [regsFromIf, hc, Bool.false_eq_true, if_false, add_zero]
        rw [ih (n + 1), hsum rates]

theorem creationRates_eq_matrix (rxns : List Reaction) (ropf ropr : ℕ → ℚ) (k : ℕ) :
    (ReactionStoichMgr.fromReactions rxns).getCreationRates ropf ropr k
      = ∑ i in Finset.range rxns.length,
          ((rxns.getD i default).productCoeff k * ropf i
            + (rxns.getD i default).reactantCoeff k * ropr i) := by
  simp only [ReactionStoichMgr.fromReactions, ReactionStoichMgr.getCreationRates,
    StoichManagerN.incrementSpecies]
  rw [buildRxns_m_reactants, buildRxns_m_revproducts, buildRxns_m_irrevproducts]
  simp only [ReactionStoichMgr.empty, List.nil_append]
  rw [listContribution_regsFromIf, listContribution_regsFromIf, listContribution_regsFromIf]
  simp only [if_true, zero_add]
  rw [← Finset.sum_add_distrib, ← Finset.sum_add_distrib]
  refine Finset.sum_congr rfl fun j _ => ?_
  simp only [Reaction.productCoeff, Reaction.reactantCoeff, Nat.zero_add]
  rcases Bool.eq_false_or_eq_true (rxns.getD j default).reversible with h | h <;>
    simp only [h, Bool.not_false, Bool.not_true, Bool.false_eq_true, if_false, if_true,
      eq_self_iff_true, zero_add, add_zero]

theorem destructionRates_eq_matrix (rxns : List Reaction) (ropf ropr : ℕ → ℚ) (k : ℕ) :
    (ReactionStoichMgr.fromReactions rxns).getDestructionRates ropf ropr k
      = ∑ i in Finset.range rxns.length,
          ((rxns.getD i default).reactantCoeff k * ropf i
            + (rxns.getD i default).productCoeff k * ropr i) := by
  simp only [ReactionStoichMgr.fromReactions, ReactionStoichMgr.getDestructionRates,
    StoichManagerN.incrementSpecies]
  rw [buildRxns_m_reactants, buildRxns_m_revproducts, buildRxns_m_irrevproducts]
  simp only [ReactionStoichMgr.empty, List.nil_append]
  rw [listContribution_regsFromIf, listContribution_regsFromIf, listContribution_regsFromIf]
  simp only [if_true, zero_add]
  rw [← Finset.sum_add_distrib, ← Finset.sum_add_distrib]
  refine Finset.sum_congr rfl fun j _ => ?_
  simp only [Reaction.productCoeff, Reaction.reactantCoeff, Nat.zero_add]
  rcases Bool.eq_false_or_eq_true (rxns.getD j default).reversible with h | h <;>
      simp only [h, Bool.not_false, Bool.not_true, Bool.false_eq_true, if_false, if_true,
        eq_self_iff_true, zero_add, add_zero] <;>
    try ring

theorem regsFromIf_key_ge (rs : List Reaction) (cond : Reaction → Bool)
    (side : Reaction → List StoichEntry) :
    ∀ (n : ℕ) (p : ℕ × List StoichEntry), p ∈ regsFromIf n rs cond side → n ≤ p.1 := by
  induction rs with
  | nil => intro n p hp; simp [regsFromIf] at hp
  | cons r rs ih =>
      intro n p hp
      rcases Bool.eq_false_or_eq_true (cond r) with hc | hc
      · simp only [regsFromIf, hc, eq_self_iff_true, if_true, List.mem_cons] at hp
        rcases hp with rfl | hp
        · exact le_refl n
        · exact le_trans (by omega) (ih (n + 1) p hp)
      · simp only [regsFromIf, hc, Bool.false_eq_true, if_false] at hp
        exact le_trans (by omega) (ih (n + 1) p hp)

theorem regsFromIf_keys_nodup (rs : List Reaction) (cond : Reaction → Bool)
    (side : Reaction → List StoichEntry) :
    ∀ n : ℕ, ((regsFromIf n rs cond side).map Prod.fst).Nodup := by
  induction rs with
  | nil => intro n; simp [regsFromIf]
  | cons r rs ih =>
      intro n
      rcases Bool.eq_false_or_eq_true (cond r) with hc | hc
      · simp only [regsFromIf, hc, eq_self_iff_true, if_true, List.map_cons, List.nodup_cons]
        refine ⟨fun hmem => ?_, ih (n + 1)⟩
        rcases List.mem_map.mp hmem with ⟨p, hp, hpn⟩
        have := regsFromIf_key_ge rs cond side (n + 1) p hp
        omega
      · simp only [regsFromIf, hc, Bool.false_eq_true, if_false]
        exact ih (n + 1)

theorem mem_regsFromIf (rs : List Reaction) (cond : Reaction → Bool)
    (side : Reaction → List StoichEntry) :
    ∀ (n j : ℕ), j < rs.length → cond (rs.getD j default) = true →
      (n + j, side (rs.getD j default)) ∈ regsFromIf n rs cond side := by
  induction rs with
  | nil => intro n j hj _; simp at hj
  | cons r rs ih =>
      intro n j hj hcj
      cases j with
      | zero =>
          simp only [List.getD_cons_zero] at hcj ⊢
          simp only [regsFromIf, hcj, eq_self_iff_true, if_true, Nat.add_zero, List.mem_cons]
          exact Or.inl trivial
      | succ j =>
          simp only [List.getD_cons_succ] at hcj ⊢
          have hmem := ih (n + 1) j (by simpa using Nat.lt_of_succ_lt_succ hj) hcj
          have harg : n + (j + 1) = n + 1 + j := by omega
          rw [harg]
          rcases Bool.eq_false_or_eq_true (cond r) with hc | hc
          · simp only [regsFromIf, hc, eq_self_iff_true, if_true, List.mem_cons]
            exact Or.inr hmem
          · simp only [regsFromIf, hc, Bool.false_eq_true, if_false]
            exact hmem

theorem mem_keys_regsFromIf (rs : List Reaction) (cond : Reaction → Bool)
    (side : Reaction → List StoichEntry) :
    ∀ (n i : ℕ), i ∈ (regsFromIf n rs cond side).map Prod.fst →
      ∃ j, j < rs.length ∧ i = n + j ∧ cond (rs.getD j default) = true := by
  induction rs with
  | nil => intro n i hi; simp [regsFromIf] at hi
  | cons r rs ih =>
      intro n i hi
      rcases Bool.eq_false_or_eq_true (cond r) with hc | hc
      · simp only [regsFromIf, hc, eq_self_iff_true, if_true, List.map_cons,
          List.mem_cons] at hi
        rcases hi with rfl | hi
        · exact ⟨0, by simp, by omega, by simpa using hc⟩
        · rcases ih (n + 1) i hi with ⟨j, hj, hij, hcj⟩
          exact ⟨j + 1, by simpa using Nat.succ_lt_succ hj, by omega, by simpa using hcj⟩
      · simp only [regsFromIf, hc, Bool.false_eq_true, if_false] at hi
        rcases ih (n + 1) i hi with ⟨j, hj, hij, hcj⟩
        exact ⟨j + 1, by simpa using Nat.succ_lt_succ hj, by omega, by simpa using hcj⟩

theorem multiply_foldl_not_mem (rpow : ℚ → ℚ → ℚ) (conc : ℕ → ℚ) :
    ∀ (l : List (ℕ × List StoichEntry)) (R : ℕ → ℚ) (i : ℕ),
      (∀ p ∈ l, p.1 ≠ i) →
      l.foldl (fun R p => Function.update R p.1 (R p.1 * orderProd rpow conc p.2)) R i = R i := by
  intro l
  induction l with
  | nil => intro R i _; rfl
  | cons q l ih =>
      intro R i h
      simp only [List.foldl_cons]
      rw [ih _ i fun p hp => h p (List.mem_cons_of_mem q hp)]
      exact Function.update_noteq (Ne.symm (h q (List.mem_cons_self q l))) _ _

theorem multiply_foldl_mem (rpow : ℚ → ℚ → ℚ) (conc : ℕ → ℚ) :
    ∀ (l : List (ℕ × List StoichEntry)) (R : ℕ → ℚ) (i : ℕ) (es : List StoichEntry),
      (l.map Prod.fst).Nodup → (i, es) ∈ l →
      l.foldl (fun R p => Function.update R p.1 (R p.1 * orderProd rpow conc p.2)) R i
        = R i * orderProd rpow conc es := by
  intro l
  induction l with
  | nil => intro R i es _ hmem; simp at hmem
  | cons q l ih =>
      intro R i es hnd hmem
      simp only [List.map_cons, List.nodup_cons] at hnd
      obtain ⟨hq, hnd'⟩ := hnd
      rcases List.mem_cons.mp hmem with heq | hmem'
      · have hkey : q.1 = i := by rw [← heq]
        have hval : q.2 = es := by rw [← heq]
        simp only [List.foldl_cons]
        rw [multiply_foldl_not_mem rpow conc l _ i fun p hp hpi => hq (hkey ▸ hpi ▸ List.mem_map.mpr ⟨p, hp, rfl⟩)]
        rw [hkey, hval, Function.update_same]
      · have hne : q.1 ≠ i := fun h =>
          hq (h ▸ List.mem_map.mpr ⟨(i, es), hmem', rfl⟩)
        simp only [List.foldl_cons]
        rw [ih _ i es hnd' hmem', Function.update_noteq (Ne.symm hne)]

theorem update_foldl_not_mem (w : ℕ × List StoichEntry → ℚ) :
    ∀ (l : List (ℕ × List StoichEntry)) (D : ℕ → ℚ) (i : ℕ),
      (∀ p ∈ l, p.1 ≠ i) →
      l.foldl (fun D p => Function.update D p.1 (w p)) D i = D i := by
  intro l
  induction l with
  | nil => intro D i _; rfl
  | cons q l ih =>
      intro D i h
      simp only [List.foldl_cons]
      rw [ih _ i fun p hp => h p (List.mem_cons_of_mem q hp)]
      exact Function.update_noteq (Ne.symm (h q (List.mem_cons_self q l))) _ _

theorem update_foldl_mem (w : ℕ × List StoichEntry → ℚ) :
    ∀ (l : List (ℕ × List StoichEntry)) (D : ℕ → ℚ) (i : ℕ) (es : List StoichEntry),
      (l.map Prod.fst).Nodup → (i, es) ∈ l →
      l.foldl (fun D p => Function.update D p.1 (w p)) D i = w (i, es) := by
  intro l
  induction l with
  | nil => intro D i es _ hmem; simp at hmem
  | cons q l ih =>
      intro D i es hnd hmem
      simp only [List.map_cons, List.nodup_cons] at hnd
      obtain ⟨hq, hnd'⟩ := hnd
      rcases List.mem_cons.mp hmem with heq | hmem'
      · have hkey : q.1 = i := by rw [← heq]
        simp only [List.foldl_cons]
        rw [update_foldl_not_mem w l _ i fun p hp hpi => hq (hkey ▸ hpi ▸ List.mem_map.mpr ⟨p, hp, rfl⟩)]
        rw [hkey, Function.update_same, ← heq]
      · simp only [List.foldl_cons]
        exact ih _ i es hnd' hmem'

theorem regsFromIf_filter_keys_lt (cond : Reaction → Bool) (side : Reaction → List StoichEntry) :
    ∀ (rs : List Reaction) (n i : ℕ), i < n →
      (regsFromIf n rs cond side).filter (fun p => p.1 == i) = [] := by
  intro rs
  induction rs with
  | nil => intro n i _; rfl
  | cons r rs ih =>
      intro n i hi
      rcases Bool.eq_false_or_eq_true (cond r) with hc | hc
      · simp only [regsFromIf, hc, eq_self_iff_true, if_true, List.filter_cons]
        rw [if_neg (by simp only [beq_iff_eq]; omega)]
        exact ih (n + 1) i (by omega)
      · simp only [regsFromIf, hc, Bool.false_eq_true, if_false]
        exact ih (n + 1) i (by omega)

theorem regsFromIf_filter_self (side : Reaction → List StoichEntry) :
    ∀ (rs : List Reaction) (n j : ℕ), j < rs.length →
      (regsFromIf n rs (fun _ => true) side).filter (fun p => p.1 == n + j)
        = [(n + j, side (rs.getD j default))] := by
  intro rs
  induction rs with
  | nil => intro n j hj; simp at hj
  | cons r rs ih =>
      intro n j hj
      simp only [regsFromIf, eq_self_iff_true, if_true]
      cases j with
      | zero =>
          simp only [Nat.add_zero, List.getD_cons_zero, List.filter_cons]
          rw [if_pos (by simp)]
          rw [regsFromIf_filter_keys_lt (fun _ => true) side rs (n + 1) n (by omega)]
      | succ j =>
          simp only [List.getD_cons_succ, List.filter_cons]
          rw [if_neg (by simp only [beq_iff_eq]; omega)]
          have hres := ih (n + 1) j (by simpa using Nat.lt_of_succ_lt_succ hj)
          rw [show n + (j + 1) = n + 1 + j from by omega]
          exact hres

theorem entriesFor_fromReactions (rxns : List Reaction) (i : ℕ) (hi : i < rxns.length) :
    (ReactionStoichMgr.fromReactions rxns).m_reactants.entriesFor i
      = (rxns.getD i default).reactants := by
  unfold StoichManagerN.entriesFor
  rw [ReactionStoichMgr.fromReactions, buildRxns_m_reactants]
  simp only [ReactionStoichMgr.empty, List.nil_append]
  have hfil := regsFromIf_filter_self Reaction.reactants rxns 0 i hi
  simp only [Nat.zero_add] at hfil
  rw [hfil]
  simp

theorem entriesDot_eq_coeffSum (g : ℕ → ℚ) (K : ℕ) :
    ∀ entries : List StoichEntry, (∀ e ∈ entries, e.species < K) →
      entriesDot entries g = ∑ k in Finset.range K, stoichCoeff entries k * g k := by
  intro entries
  induction entries with
  | nil => intro _; simp [entriesDot, stoichCoeff]
  | cons e es ih =>
      intro h
      simp only [entriesDot, List.map_cons, List.sum_cons]
      have hes := ih fun e' he' => h e' (List.mem_cons_of_mem e he')
      simp only [entriesDot] at hes
      rw [hes]
      have hdecomp : (∑ k in Finset.range K, stoichCoeff (e :: es) k * g k)
          = ∑ k in Finset.range K,
              ((if e.species = k then e.stoich * g k else 0) + stoichCoeff es k * g k) :=
        Finset.sum_congr rfl fun k _ => by
          simp only [stoichCoeff, List.map_cons, List.sum_cons, add_mul, ite_mul, zero_mul]
      rw [hdecomp, Finset.sum_add_distrib, Finset.sum_ite_eq]
      simp [Finset.mem_range.mpr (h e (List.mem_cons_self e es))]

/-- Claim C1: for every registered mechanism, every species `k`, and every
pair of forward/reverse rate-of-progress vectors, `getNetProductionRates`
applied to the net rates of progress `fwd - rev` returns exactly
`creation - destruction` as computed by `getCreationRates` and
`getDestructionRates` on the same inputs. -/
theorem claim_C1_net_eq_creation_sub_destruction (m : ReactionStoichMgr)
    (fwd rev : ℕ → ℚ) (k : ℕ) :
    m.getNetProductionRates (fun i => fwd i - rev i) k
      = m.getCreationRates fwd rev k - m.getDestructionRates fwd rev k := by
  simp only [ReactionStoichMgr.getNetProductionRates, ReactionStoichMgr.getCreationRates,
    ReactionStoichMgr.getDestructionRates, StoichManagerN.incrementSpecies,
    StoichManagerN.decrementSpecies]
  rw [listContribution_sub, listContribution_sub, listContribution_sub]
  ring

/-- Claim C2: for every registered mechanism and every pair of
forward/reverse rate-of-progress vectors, `getCreationRates` returns
`C = N_p Q_fwd + N_r Q_rev` and `getDestructionRates` returns the symmetric
`D = N_r Q_fwd + N_p Q_rev`, where `N_r` and `N_p` are the reactant and
product stoichiometric coefficient matrices. -/
theorem claim_C2_creation_destruction_matrices (rxns : List Reaction)
    (fwd rev : ℕ → ℚ) (k : ℕ) :
    (ReactionStoichMgr.fromReactions rxns).getCreationRates fwd rev k
        = ∑ i in Finset.range rxns.length,
            ((rxns.getD i default).productCoeff k * fwd i
              + (rxns.getD i default).reactantCoeff k * rev i)
      ∧ (ReactionStoichMgr.fromReactions rxns).getDestructionRates fwd rev k
        = ∑ i in Finset.range rxns.length,
            ((rxns.getD i default).reactantCoeff k * fwd i
              + (rxns.getD i default).productCoeff k * rev i) :=
  ⟨creationRates_eq_matrix rxns fwd rev k, destructionRates_eq_matrix rxns fwd rev k⟩

/-- Claim C3: if any phase supplying a reactant to reaction `j` has its
existence flag false, the gated forward rate of progress of `j` is exactly
zero regardless of the raw rate, while the reverse rate of progress is not
zeroed by this rule (it is untouched whenever all product phases exist). -/
theorem claim_C3_missing_reactant_phase_zeroes_fwd (gate : PhaseGate) (ropf ropr : ℕ → ℚ)
    (j p : ℕ) (hp : p < gate.nPhases) (hreac : gate.rxnPhaseIsReactant j p = true)
    (hex : gate.phaseExists p = false) :
    gateFwdROP gate ropf j = 0
      ∧ (missingProductPhase gate j = false → gateRevROP gate ropr j = ropr j) := by
  constructor
  · have hmiss : missingReactantPhase gate j = true := by
      unfold missingReactantPhase
      rw [List.any_eq_true]
      exact ⟨p, List.mem_range.mpr hp, by rw [hreac, hex]; rfl⟩
    unfold gateFwdROP
    rw [hmiss]
    simp
  · intro hnone
    unfold gateRevROP
    rw [hnone]
    simp

/-- Witness for claim C3 at the concrete two-phase gate in which phase B is
absent. -/
theorem claim_C3_witness :
    gateFwdROP twoPhaseGateB (fun _ => 3) 0 = 0
      ∧ (missingProductPhase twoPhaseGateB 0 = false →
          gateRevROP twoPhaseGateB (fun _ => 5) 0 = (fun _ => (5 : ℚ)) 0) :=
  claim_C3_missing_reactant_phase_zeroes_fwd twoPhaseGateB (fun _ => 3) (fun _ => 5) 0 1
    (by decide) rfl rfl

/-- Claim C4: for a species `k` belonging to a phase whose stability flag is
false, the clamped net production rate is never positive, and a positive
intrinsic net rate is clamped to exactly zero. -/
theorem claim_C4_unstable_phase_clamp (isStable : ℕ → Bool) (phaseOf : ℕ → ℕ)
    (net : ℕ → ℚ) (k : ℕ) (hunstable : isStable (phaseOf k) = false) :
    clampUnstableNet isStable phaseOf net k ≤ 0
      ∧ (0 < net k → clampUnstableNet isStable phaseOf net k = 0) := by
  unfold clampUnstableNet
  constructor
  · by_cases hpos : 0 < net k
    · rw [if_pos ⟨hunstable, hpos⟩]
    · rw [if_neg fun h => hpos h.2]
      exact le_of_not_lt hpos
  · intro hpos
    rw [if_pos ⟨hunstable, hpos⟩]

/-- Witness for claim C4 at a concrete unstable phase with positive
intrinsic net rate. -/
theorem claim_C4_witness :
    clampUnstableNet (fun _ => false) (fun _ => 0) (fun _ => 1) 0 ≤ 0
      ∧ (0 < (fun _ => (1 : ℚ)) 0 →
          clampUnstableNet (fun _ => false) (fun _ => 0) (fun _ => 1) 0 = 0) :=
  claim_C4_unstable_phase_clamp (fun _ => false) (fun _ => 0) (fun _ => 1) 0 rfl

/-- Claim C5: on the concrete fractional-coefficient mechanism, creation and
destruction rates take exactly the values mandated by the test (species
indices `H2O = 0`, `OH = 1`, `H = 2`, `O2 = 3`, `H2 = 4`), and every
species appearing in neither reaction has zero creation and destruction. -/
theorem claim_C5_fractional_example (q0 q1 : ℚ) (k : ℕ) (hk : 5 ≤ k) :
    fracMech.getCreationRates
        (fun i => if i = 0 then q0 else if i = 1 then q1 else 0) (fun _ => 0) 2 = 1.4 * q0
      ∧ fracMech.getCreationRates
          (fun i => if i = 0 then q0 else if i = 1 then q1 else 0) (fun _ => 0) 1 = 0.6 * q0
      ∧ fracMech.getCreationRates
          (fun i => if i = 0 then q0 else if i = 1 then q1 else 0) (fun _ => 0) 3 = 0.2 * q0
      ∧ fracMech.getDestructionRates
          (fun i => if i = 0 then q0 else if i = 1 then q1 else 0) (fun _ => 0) 0 = q0
      ∧ fracMech.getDestructionRates
          (fun i => if i = 0 then q0 else if i = 1 then q1 else 0) (fun _ => 0) 4 = 0.7 * q1
      ∧ fracMech.getCreationRates
          (fun i => if i = 0 then q0 else if i = 1 then q1 else 0) (fun _ => 0) 0 = q1
      ∧ fracMech.getCreationRates
          (fun i => if i = 0 then q0 else if i = 1 then q1 else 0) (fun _ => 0) k = 0
      ∧ fracMech.getDestructionRates
          (fun i => if i = 0 then q0 else if i = 1 then q1 else 0) (fun _ => 0) k = 0 := by
  have h0 : ¬((0 : ℕ) = k) := by omega
  have h1 : ¬((1 : ℕ) = k) := by omega
  have h2 : ¬((2 : ℕ) = k) := by omega
  have h3 : ¬((3 : ℕ) = k) := by omega
  have h4 : ¬((4 : ℕ) = k) := by omega
  refine ⟨?_, ?_, ?_, ?_, ?_, ?_, ?_, ?_⟩
  all_goals simp only [fracMech]
  all_goals first
    | (rw [creationRates_eq_matrix]
       norm_num [Finset.sum_range_succ, fracRxn0, fracRxn1, Reaction.productCoeff,
         Reaction.reactantCoeff, stoichCoeff, h0, h1, h2, h3, h4])
    | (rw [destructionRates_eq_matrix]
       norm_num [Finset.sum_range_succ, fracRxn0, fracRxn1, Reaction.productCoeff,
         Reaction.reactantCoeff, stoichCoeff, h0, h1, h2, h3, h4])

/-- Witness for claim C5 at concrete rates of progress and the unused
species index `5`. -/
theorem claim_C5_witness :
    fracMech.getCreationRates
        (fun i => if i = 0 then (1 : ℚ) else if i = 1 then 2 else 0) (fun _ => 0) 5 = 0 :=
  (claim_C5_fractional_example 1 2 5 (by norm_num)).2.2.2.2.2.2.1

/-- Claim C6: `multiplyReactants` multiplies `rates[i]` in place by the
product over the reaction's reactant entries of `conc[species]^order`; an
order of exactly zero contributes the factor one, and a zero concentration
raised to a positive order annihilates the rate (the external power function
returns zero there), with no failure. -/
theorem claim_C6_multiplyReactants (rpow : ℚ → ℚ → ℚ) (rxns : List Reaction)
    (conc rates : ℕ → ℚ) (i : ℕ) (hi : i < rxns.length)
    (hrpow : ∀ e : ℚ, 0 < e → rpow 0 e = 0) :
    (ReactionStoichMgr.fromReactions rxns).multiplyReactants rpow conc rates i
        = rates i * orderProd rpow conc (rxns.getD i default).reactants
      ∧ (∀ (e : StoichEntry) (es : List StoichEntry), e.order = 0 →
          orderProd rpow conc (e :: es) = orderProd rpow conc es)
      ∧ (∀ e ∈ (rxns.getD i default).reactants, 0 < e.order → conc e.species = 0 →
          (ReactionStoichMgr.fromReactions rxns).multiplyReactants rpow conc rates i = 0) := by
  have hmain : (ReactionStoichMgr.fromReactions rxns).multiplyReactants rpow conc rates i
      = rates i * orderProd rpow conc (rxns.getD i default).reactants := by
    unfold ReactionStoichMgr.multiplyReactants StoichManagerN.multiply
    rw [ReactionStoichMgr.fromReactions, buildRxns_m_reactants]
    simp only [ReactionStoichMgr.empty, List.nil_append]
    have hmem := mem_regsFromIf rxns (fun _ => true) Reaction.reactants 0 i hi rfl
    simp only [Nat.zero_add] at hmem
    exact multiply_foldl_mem rpow conc _ rates i _
      (regsFromIf_keys_nodup rxns (fun _ => true) Reaction.reactants 0) hmem
  refine ⟨hmain, ?_, ?_⟩
  · intro e es he0
    simp [orderProd, he0]
  · intro e hmem' hord hc0
    rw [hmain]
    have hfac : (if e.order = 0 then (1 : ℚ) else rpow (conc e.species) e.order) = 0 := by
      rw [if_neg (ne_of_gt hord), hc0]
      exact hrpow e.order hord
    have hzero : (0 : ℚ) ∈ (rxns.getD i default).reactants.map
        (fun e => if e.order = 0 then (1 : ℚ) else rpow (conc e.species) e.order) :=
      List.mem_map.mpr ⟨e, hmem', hfac⟩
    unfold orderProd
    rw [List.prod_eq_zero hzero, mul_zero]

/-- Witness for claim C6 at the one-reaction fractional mechanism with a
zero concentration. -/
theorem claim_C6_witness :
    (ReactionStoichMgr.fromReactions [fracRxn0]).multiplyReactants (fun c _ => c)
        (fun _ => 0) (fun _ => 3) 0 = 0 :=
  (claim_C6_multiplyReactants (fun c _ => c) [fracRxn0] (fun _ => 0) (fun _ => 3) 0
      (by norm_num) fun _ _ => rfl).2.2
    ⟨0, 1, 1⟩ (by simp [fracRxn0]) (by norm_num) rfl

/-- Claim C7: `getRevReactionDelta` writes the product-minus-reactant
property delta only at indices of reversible reactions and leaves every
entry of `dg` belonging to an irreversible reaction unchanged. -/
theorem claim_C7_revReactionDelta_frame (rxns : List Reaction) (g dg : ℕ → ℚ) (K i : ℕ) :
    ((rxns.getD i default).reversible = false →
      (ReactionStoichMgr.fromReactions rxns).getRevReactionDelta g dg i = dg i)
      ∧ (i < rxns.length → (rxns.getD i default).reversible = true →
          (∀ e ∈ (rxns.getD i default).reactants ++ (rxns.getD i default).products,
            e.species < K) →
          (ReactionStoichMgr.fromReactions rxns).getRevReactionDelta g dg i
            = (∑ k in Finset.range K, (rxns.getD i default).productCoeff k * g k)
              - ∑ k in Finset.range K, (rxns.getD i default).reactantCoeff k * g k) := by
  have hlist : (ReactionStoichMgr.fromReactions rxns).m_revproducts.rxns
      = regsFromIf 0 rxns (fun r => r.reversible) Reaction.products := by
    rw [ReactionStoichMgr.fromReactions, buildRxns_m_revproducts]
    simp [ReactionStoichMgr.empty]
  constructor
  · intro hirr
    unfold ReactionStoichMgr.getRevReactionDelta
    rw [hlist]
    apply update_foldl_not_mem
    intro q hq hqi
    rcases mem_keys_regsFromIf rxns (fun r => r.reversible) Reaction.products 0 i
        (List.mem_map.mpr ⟨q, hq, hqi⟩) with ⟨j, _, hij, hcj⟩
    rw [show j = i from by omega, hirr] at hcj
    exact Bool.false_ne_true hcj
  · intro hi hrev hK
    unfold ReactionStoichMgr.getRevReactionDelta
    rw [hlist]
    have hmem := mem_regsFromIf rxns (fun r => r.reversible) Reaction.products 0 i hi hrev
    simp only [Nat.zero_add] at hmem
    rw [update_foldl_mem (revDeltaTerm (ReactionStoichMgr.fromReactions rxns) g) _ dg i _
      (regsFromIf_keys_nodup rxns (fun r => r.reversible) Reaction.products 0) hmem]
    unfold revDeltaTerm
    rw [entriesFor_fromReactions rxns i hi]
    rw [entriesDot_eq_coeffSum g K _ fun e he => hK e (List.mem_append_right _ he),
      entriesDot_eq_coeffSum g K _ fun e he => hK e (List.mem_append_left _ he)]
    rfl

/-- Witness for claim C7: with one reversible reaction registered, the `dg`
entry at the out-of-mechanism (hence irreversible) index `1` is untouched. -/
theorem claim_C7_witness :
    (ReactionStoichMgr.fromReactions [revRxnEx]).getRevReactionDelta
        (fun _ => 1) (fun _ => 7) 1 = (fun _ => (7 : ℚ)) 1 :=
  (claim_C7_revReactionDelta_frame [revRxnEx] (fun _ => 1) (fun _ => 7) 2 1).1 rfl

/-- Claim C8: `setPhaseExistence p false` also forces the stability flag of
phase `p` to false; the stability flag can afterwards still be changed by an
explicit `setPhaseStability` call; and in the initial state every phase
defaults to existing and stable. -/
theorem claim_C8_nonexistent_phase_forced_unstable (s : PhaseFlags) (p : ℕ) (b : Bool) :
    (setPhaseExistence s p false).m_phaseIsStable p = false
      ∧ (setPhaseStability (setPhaseExistence s p false) p b).m_phaseIsStable p = b
      ∧ PhaseFlags.init.m_phaseExists p = true
      ∧ PhaseFlags.init.m_phaseIsStable p = true := by
  refine ⟨?_, ?_, rfl, rfl⟩
  · simp [setPhaseExistence]
  · simp [setPhaseStability]

/-- Claim C9: `isReversible i` returns true exactly when `i` is a member of
the stored list of reversible reaction indices. -/
theorem claim_C9_isReversible_iff_mem (m_revindex : List ℕ) (i : ℕ) :
    InterfaceKinetics.isReversible m_revindex i = true ↔ i ∈ m_revindex := by
  unfold InterfaceKinetics.isReversible
  split_ifs with h
  · refine ⟨fun _ => ?_, fun _ => rfl⟩
    rcases List.findIdx_lt_length.mp h with ⟨x, hx, hpx⟩
    simp only [beq_iff_eq] at hpx
    exact hpx ▸ hx
  · refine ⟨fun hf => absurd hf (by simp), fun hi => ?_⟩
    exact absurd (List.findIdx_lt_length.mpr ⟨i, hi, by simp⟩) h

/-- Witness for claim C9 at a concrete index list. -/
theorem claim_C9_witness :
    InterfaceKinetics.isReversible [1, 3] 3 = true ↔ 3 ∈ [1, 3] :=
  claim_C9_isReversible_iff_mem [1, 3] 3

/-- Claim C10: `setMolarDensity vm` raises a `CanteraError` for every
`vm ≠ 0`, returns normally for `vm = 0`, and `molarVolume` returns zero in
every state. -/
theorem claim_C10_surf_molar_density (vm : ℚ) (s : SurfPhaseState) :
    (vm ≠ 0 → SurfPhase.setMolarDensity vm
        = Except.error "SurfPhase::setMolarDensity: The volume of an interface is zero")
      ∧ SurfPhase.setMolarDensity 0 = Except.ok ()
      ∧ SurfPhase.molarVolume s = 0 := by
  refine ⟨fun h => ?_, ?_, rfl⟩
  · unfold SurfPhase.setMolarDensity
    rw [if_pos h]
  · unfold SurfPhase.setMolarDensity
    rw [if_neg (by simp)]

/-- Witness for claim C10 at the nonzero molar volume `1`. -/
theorem claim_C10_witness :
    SurfPhase.setMolarDensity 1
      = Except.error "SurfPhase::setMolarDensity: The volume of an interface is zero" :=
  (claim_C10_surf_molar_density 1 ⟨0⟩).1 (by norm_num)

end Cantera
